import Mathlib

/-!
# Verification of the PDF knowledgebase retrieval core

This file shallowly embeds the retrieval subsystem of the repository:

* `lib/pdf_utils.py` — `chunk_text` (passage segmentation);
* `lib/retriever.py` — `Retriever` (passage store + TF-IDF retrieval index).

Python text is modelled as `List Char`, Python `int` as `ℤ` (`ℕ` where the
value is provably non-negative in the source), the file system as a map from
document id to a `FileState`, and raised exceptions as explicit error values.
The `while` loop of `chunk_text` is embedded with explicit fuel (`none` means
the loop has not finished within the given fuel; divergence is "`none` for
every fuel").  Floating point arithmetic of numpy/scikit-learn is idealised
as real arithmetic, which is the standard reading of the spec's note that
"exact floating-point values are not part of the contract, only relative
ordering".
-/

namespace PdfCore

/-! ## 1. Passage segmentation: `chunk_text` (`lib/pdf_utils.py`) -/

/-- Python slice-index resolution for `s[a:b]`: a negative index counts from
the end (clamped at 0), a non-negative index is clamped to the length. -/
def pyIdx (n : ℕ) (i : ℤ) : ℕ :=
  if i < 0 then ((n : ℤ) + i).toNat else min i.toNat n

/-- Python `s[a:b]` for a non-negative `a` (the only shape the source uses:
`text[start:end]` with `start ≥ 0` maintained by the loop). -/
def pySlice (s : List Char) (a : ℕ) (b : ℤ) : List Char :=
  (s.take (pyIdx s.length b)).drop (min a s.length)

/-- The `while start < n` loop of `chunk_text`, with fuel.  One unit of fuel
is one loop iteration; `none` means the fuel ran out before the loop
finished.  Mirrors `lib/pdf_utils.py` lines 27–36:

```python
while start < n:
    end = min(start + max_chars, n)
    chunk = text[start:end]
    chunks.append(chunk)
    if end == n:
        break
    start = end - overlap
    if start < 0:
        start = 0
```

`start` is kept as `ℕ` because the source clamps it at 0 after every update
(`(e - overlap).toNat` is exactly `max(end - overlap, 0)`). -/
def chunkGo (text : List Char) (maxChars overlap : ℤ) : ℕ → ℕ → Option (List (List Char))
  | _, 0 => none
  | start, fuel + 1 =>
    let n := text.length
    if (start : ℤ) < n then
      let e : ℤ := min ((start : ℤ) + maxChars) n
      let chunk := pySlice text start e
      if e = n then
        some [chunk]
      else
        (chunkGo text maxChars overlap (e - overlap).toNat fuel).map (chunk :: ·)
    else
      some []

/-- `chunk_text(text, max_chars, overlap)` from `lib/pdf_utils.py`.  The
source's loop is run with `text.length + 1` fuel, which is enough for every
terminating execution (the loop runs at most once per character position);
`none` therefore means the source loop does not terminate. -/
def chunk_text (text : List Char) (maxChars overlap : ℤ) : Option (List (List Char)) :=
  if text.isEmpty then some [] else chunkGo text maxChars overlap 0 (text.length + 1)

/-- The source loop of `chunk_text` diverges from its initial state: no
amount of fuel completes it. -/
def chunkDiverges (text : List Char) (maxChars overlap : ℤ) : Prop :=
  ∀ fuel, chunkGo text maxChars overlap 0 fuel = none

/-- Start positions of the chunks emitted by the `chunk_text` loop, for valid
parameters (`overlap < maxChars`), beginning at position `start < text.length`.
Each next chunk starts `overlap` characters before the previous one ends. -/
def ssSpec (n maxChars overlap : ℕ) (start : ℕ) : List ℕ :=
  if _h : overlap < maxChars ∧ start < n then
    if start + maxChars < n then
      start :: ssSpec n maxChars overlap (start + (maxChars - overlap))
    else
      [start]
  else
    []
  termination_by n - start
  decreasing_by omega

/-- The chunks emitted by the `chunk_text` loop from position `start`, for
valid parameters: the slices of `text` at the `ssSpec` start positions. -/
def chunksSpec (text : List Char) (maxChars overlap : ℕ) (start : ℕ) : List (List Char) :=
  (ssSpec text.length maxChars overlap start).map (fun p => (text.drop p).take maxChars)

/-- "Concatenating the first chunk with every subsequent chunk stripped of its
repeated `overlap`-length prefix" (spec §8, segmentation coverage). -/
def joinOv (overlap : ℕ) : List (List Char) → List Char
  | [] => []
  | c :: rest => c ++ (rest.map (·.drop overlap)).flatten

/-! ## 2. Retrieval engine: `Retriever` (`lib/retriever.py`)

The `Retriever` holds a text directory (modelled as a map from product id to
the state of the persisted chunk file) and an in-memory cache.  The vector
machinery (`TfidfVectorizer(stop_words="english")`, `cosine_similarity`,
`argsort`) is external library code (scikit-learn / numpy); it is modelled
below from its documented behavior, with floats idealised as `ℝ`. -/

/-- Model of a word character for scikit-learn's default token pattern
`(?u)\b\w\w+\b` (restricted to the alphanumeric/underscore characters the
repository's data exercises). -/
def isWordChar (c : Char) : Bool := c.isAlphanum || c == '_'

/-- Maximal runs of word characters: scan with an accumulator holding the
current (reversed) run. -/
def wordRunsGo : List Char → List Char → List (List Char)
  | [], acc => if acc.isEmpty then [] else [acc.reverse]
  | c :: cs, acc =>
    if isWordChar c then
      wordRunsGo cs (c :: acc)
    else if acc.isEmpty then
      wordRunsGo cs []
    else
      acc.reverse :: wordRunsGo cs []

/-- Maximal runs of word characters of a character list. -/
def wordRuns (l : List Char) : List (List Char) := wordRunsGo l []

/-- Modelled from scikit-learn's frozen `ENGLISH_STOP_WORDS` list (the
`stop_words="english"` argument of `TfidfVectorizer` in `_build_index`). -/
def englishStopWords : List String :=
  ["a", "about", "above", "across", "after", "afterwards", "again", "against",
   "all", "almost", "alone", "along", "already", "also", "although", "always",
   "am", "among", "amongst", "amoungst", "amount", "an", "and", "another",
   "any", "anyhow", "anyone", "anything", "anyway", "anywhere", "are",
   "around", "as", "at", "back", "be", "became", "because", "become",
   "becomes", "becoming", "been", "before", "beforehand", "behind", "being",
   "below", "beside", "besides", "between", "beyond", "bill", "both",
   "bottom", "but", "by", "call", "can", "cannot", "cant", "co", "con",
   "could", "couldnt", "cry", "de", "describe", "detail", "do", "done",
   "down", "due", "during", "each", "eg", "eight", "either", "eleven",
   "else", "elsewhere", "empty", "enough", "etc", "even", "ever", "every",
   "everyone", "everything", "everywhere", "except", "few", "fifteen",
   "fifty", "fill", "find", "fire", "first", "five", "for", "former",
   "formerly", "forty", "found", "four", "from", "front", "full", "further",
   "get", "give", "go", "had", "has", "hasnt", "have", "he", "hence", "her",
   "here", "hereafter", "hereby", "herein", "hereupon", "hers", "herself",
   "him", "himself", "his", "how", "however", "hundred", "i", "ie", "if",
   "in", "inc", "indeed", "interest", "into", "is", "it", "its", "itself",
   "keep", "last", "latter", "latterly", "least", "less", "ltd", "made",
   "many", "may", "me", "meanwhile", "might", "mill", "mine", "more",
   "moreover", "most", "mostly", "move", "much", "must", "my", "myself",
   "name", "namely", "neither", "never", "nevertheless", "next", "nine",
   "no", "nobody", "none", "noone", "nor", "not", "nothing", "now",
   "nowhere", "of", "off", "often", "on", "once", "one", "only", "onto",
   "or", "other", "others", "otherwise", "our", "ours", "ourselves", "out",
   "over", "own", "part", "per", "perhaps", "please", "put", "rather", "re",
   "same", "see", "seem", "seemed", "seeming", "seems", "serious", "several",
   "she", "should", "show", "side", "since", "sincere", "six", "sixty", "so",
   "some", "somehow", "someone", "something", "sometime", "sometimes",
   "somewhere", "still", "such", "system", "take", "ten", "than", "that",
   "the", "their", "them", "themselves", "then", "thence", "there",
   "thereafter", "thereby", "therefore", "therein", "thereupon", "these",
   "they", "thick", "thin", "third", "this", "those", "though", "three",
   "through", "throughout", "thru", "thus", "to", "together", "too", "top",
   "toward", "towards", "twelve", "twenty", "two", "un", "under", "until",
   "up", "upon", "us", "very", "via", "was", "we", "well", "were", "what",
   "whatever", "when", "whence", "whenever", "where", "whereafter",
   "whereas", "whereby", "wherein", "whereupon", "wherever", "whether",
   "which", "while", "whither", "who", "whoever", "whole", "whom", "whose",
   "why", "will", "with", "within", "without", "would", "yet", "you",
   "your", "yours", "yourself", "yourselves"]

/-- scikit-learn tokenization: lowercase, take maximal word-character runs of
length at least 2 (token pattern `(?u)\b\w\w+\b`), drop English stop words. -/
def tokenize (s : String) : List String :=
  ((wordRuns (s.data.map Char.toLower)).map (fun l => String.mk l)).filter
    (fun t => decide (2 ≤ t.length) && !(englishStopWords.contains t))

/-- The fitted vocabulary: every token occurring in some document, once. -/
def buildVocab (docs : List String) : List String :=
  ((docs.map tokenize).flatten).dedup

/-- Number of documents containing the term (document frequency). -/
def docFreq (docs : List String) (t : String) : ℕ :=
  (docs.filter (fun d => (tokenize d).contains t)).length

/-- Smoothed inverse document frequency, scikit-learn's default
(`smooth_idf=True`): `ln((1 + n) / (1 + df(t))) + 1`. -/
noncomputable def idfOf (docs : List String) (t : String) : ℝ :=
  Real.log ((1 + (docs.length : ℝ)) / (1 + (docFreq docs t : ℝ))) + 1

/-- Dot product of two term-weight vectors over the vocabulary. -/
noncomputable def dotV (vocab : List String) (u v : String → ℝ) : ℝ :=
  (vocab.map (fun t => u t * v t)).sum

/-- Euclidean norm of a term-weight vector over the vocabulary. -/
noncomputable def normV (vocab : List String) (u : String → ℝ) : ℝ :=
  Real.sqrt ((vocab.map (fun t => u t ^ 2)).sum)

/-- l2 normalization as scikit-learn's `normalize` performs it: an all-zero
vector is left unchanged. -/
noncomputable def nrm (vocab : List String) (u : String → ℝ) : String → ℝ :=
  if normV vocab u = 0 then u else fun t => u t / normV vocab u

/-- Raw (un-normalized) tf-idf weight vector of one document. -/
noncomputable def tfidfRaw (docs : List String) (d : String) : String → ℝ :=
  fun t => ((tokenize d).count t : ℝ) * idfOf docs t

/-- A cache entry of the retriever, `lib/retriever.py` line 13: the chunk
list, and the fitted vectorizer and row matrix (vocabulary, idf weights,
l2-normalized tf-idf row per chunk). -/
structure IndexEntry where
  chunks : List String
  vocab : List String
  idf : String → ℝ
  rows : List (String → ℝ)

/-- `TfidfVectorizer(stop_words="english").fit_transform(docs)`: `none`
models the `ValueError: empty vocabulary` scikit-learn raises when no
document contributes any token after tokenization and stop-word removal. -/
noncomputable def fitTransform (docs : List String) :
    Option (List String × (String → ℝ) × List (String → ℝ)) :=
  if (buildVocab docs).isEmpty then none
  else some (buildVocab docs, idfOf docs,
    docs.map (fun d => nrm (buildVocab docs) (tfidfRaw docs d)))

/-- State of one persisted chunk file `{text_dir}/{product_id}.json`:
missing, present but unreadable (`json.load` raises), or readable with the
stored chunk list. -/
inductive FileState
  | absent
  | corrupt
  | good (chunks : List String)

/-- Exceptions the retriever can raise: scikit-learn's empty-vocabulary
`ValueError` from `fit_transform`, and an I/O error from the persisting
`open`/`json.dump` in `index_product`. -/
inductive RtError
  | emptyVocab
  | writeFailed
deriving DecidableEq

/-- The state of a `Retriever`: the text directory on disk and the in-memory
cache keyed by product id. -/
structure RetState where
  files : String → FileState
  cache : String → Option IndexEntry

/-- One ranked result of `query`: the passage text and its similarity score. -/
structure QueryResult where
  text : String
  score : ℝ

/-- Insertion of index `i` into an index list sorted ascending by score,
moving left only past strictly greater scores (so among equal scores the
newly inserted, larger index stays to the right). -/
noncomputable def insertAsc (sims : List ℝ) (i : ℕ) : List ℕ → List ℕ
  | [] => [i]
  | j :: rest =>
    if sims.getD i 0 < sims.getD j 0 then i :: j :: rest
    else j :: insertAsc sims i rest

/-- `sims.argsort()`: the indices of `sims` sorted by ascending score.
numpy's default sort (`kind='quicksort'`, an introsort) is documented as
**not stable**: among equal scores the order of indices is unspecified (it
degenerates to a stable insertion sort only on partitions of fewer than
about 16 elements).  The embedding must be a function, so this definition
fixes one concrete determinization of that unspecified behavior — an
insertion sort.  General theorems below use only the properties every
determinization shares (a permutation of the index range, scores sorted
ascending); the order among tied scores is relied on only for two-element
score lists, where numpy's actual behavior is the insertion sort modelled
here. -/
noncomputable def argsortAsc (sims : List ℝ) : List ℕ :=
  (List.range sims.length).foldl (fun acc i => insertAsc sims i acc) []

namespace Retriever

/-- `Retriever._load_chunks`: the persisted chunks, or `[]` when the file is
missing (`os.path.exists` fails) or unreadable (`except Exception`). -/
def load_chunks (st : RetState) (pid : String) : List String :=
  match st.files pid with
  | .good chunks => chunks
  | _ => []

/-- `Retriever._build_index`: substitute `[""]` for an empty chunk list
("avoid fitting empty"), fit the vectorizer, and replace the cache entry.
A `ValueError` from `fit_transform` propagates and leaves the cache
untouched. -/
noncomputable def build_index (st : RetState) (pid : String) (chunks : List String) :
    RetState × Option RtError :=
  match fitTransform (if chunks.isEmpty then [""] else chunks) with
  | none => (st, some .emptyVocab)
  | some (vocab, idf, rows) =>
      let entry : IndexEntry := ⟨if chunks.isEmpty then [""] else chunks, vocab, idf, rows⟩
      ({ st with cache := Function.update st.cache pid (some entry) }, none)

/-- The persistence step of `Retriever.index_product`: write
`{product_id}.json` with the chunk list (spec §4.2 `save`). -/
def save_chunks (st : RetState) (pid : String) (chunks : List String) : RetState :=
  { st with files := Function.update st.files pid (.good chunks) }

/-- `Retriever.index_product`: persist the chunks, then build the in-memory
index.  `writeOk` is the outcome of the durable write (`open`/`json.dump`);
when it fails the exception propagates before anything else happens. -/
noncomputable def index_product (st : RetState) (pid : String) (chunks : List String)
    (writeOk : Bool) : RetState × Option RtError :=
  if writeOk then build_index (save_chunks st pid chunks) pid chunks
  else (st, some .writeFailed)

/-- `Retriever._ensure_index`: build the entry from the persisted chunks
unless it is already cached. -/
noncomputable def ensure_index (st : RetState) (pid : String) :
    RetState × Option RtError :=
  if (st.cache pid).isSome then (st, none)
  else build_index st pid (load_chunks st pid)

/-- The similarity row `cosine_similarity(vec, entry["matrix"]).flatten()`:
the query is transformed into the entry's vector space (l2-normalized tf-idf
over the fitted vocabulary) and `cosine_similarity` normalizes both sides
again before taking dot products. -/
noncomputable def querySims (entry : IndexEntry) (question : String) : List ℝ :=
  let qv := nrm entry.vocab (fun t => ((tokenize question).count t : ℝ) * entry.idf t)
  entry.rows.map (fun r => dotV entry.vocab (nrm entry.vocab qv) (nrm entry.vocab r))

/-- The ranked results `query` assembles from a cache entry:
`sims.argsort()[::-1][:max(top_k, 1)]`, then text and score per index. -/
noncomputable def queryResults (entry : IndexEntry) (question : String) (topK : ℤ) :
    List QueryResult :=
  let sims := querySims entry question
  (((argsortAsc sims).reverse).take (max topK 1).toNat).map
    (fun i => ⟨entry.chunks.getD i "", sims.getD i 0⟩)

/-- `Retriever.query`: ensure the index exists (lazily rebuilding from the
store), then rank all passages of the document against the question. -/
noncomputable def query (st : RetState) (pid question : String) (topK : ℤ) :
    RetState × Except RtError (List QueryResult) :=
  match ensure_index st pid with
  | (st1, some e) => (st1, .error e)
  | (st1, none) =>
    match st1.cache pid with
    | none => (st1, .ok [])
    | some entry => (st1, .ok (queryResults entry question topK))

end Retriever

/-- A fresh retriever over an empty text directory: no files, empty cache. -/
def emptyRetState : RetState := ⟨fun _ => .absent, fun _ => none⟩

/-- A retriever whose text directory holds only unreadable files. -/
def corruptRetState : RetState := ⟨fun _ => .corrupt, fun _ => none⟩

/-- The passages of the spec's lazy-rebuild scenario (claim C2). -/
def c2Docs : List String := ["alpha beta", "gamma"]

/-- The cache entry `_build_index` constructs for `c2Docs`. -/
noncomputable def c2Entry : IndexEntry :=
  ⟨c2Docs, ["alpha", "beta", "gamma"], idfOf c2Docs,
   [nrm ["alpha", "beta", "gamma"] (tfidfRaw c2Docs "alpha beta"),
    nrm ["alpha", "beta", "gamma"] (tfidfRaw c2Docs "gamma")]⟩

/-- Two distinct passages with identical term counts, hence tied similarity
scores for every question (claim C3's tie-break scenario). -/
def c3Docs : List String := ["alpha beta", "beta alpha"]

/-- The cache entry `_build_index` constructs for `c3Docs`. -/
noncomputable def c3Entry : IndexEntry :=
  ⟨c3Docs, ["beta", "alpha"], idfOf c3Docs,
   [nrm ["beta", "alpha"] (tfidfRaw c3Docs "alpha beta"),
    nrm ["beta", "alpha"] (tfidfRaw c3Docs "beta alpha")]⟩

/-! ### Lemmas about the segmentation loop -/

theorem getLast?_cons_ne_nil {α : Type*} (a : α) {l : List α} (h : l ≠ []) :
    (a :: l).getLast? = l.getLast? := by
  cases l with
  | nil => exact absurd rfl h
  | cons b t => simp [List.getLast?_cons_cons]

theorem ssSpec_head {n maxChars overlap start : ℕ} (hov : overlap < maxChars)
    (hst : start < n) : ∃ t, ssSpec n maxChars overlap start = start :: t := by
  rw [ssSpec]
  rw [dif_pos ⟨hov, hst⟩]
  split
  · exact ⟨_, rfl⟩
  · exact ⟨[], rfl⟩

theorem ssSpec_ne_nil {n maxChars overlap start : ℕ} (hov : overlap < maxChars)
    (hst : start < n) : ssSpec n maxChars overlap start ≠ [] := by
  obtain ⟨t, ht⟩ := ssSpec_head hov hst
  simp [ht]

theorem chunksSpec_ne_nil {text : List Char} {maxChars overlap start : ℕ}
    (hov : overlap < maxChars) (hst : start < text.length) :
    chunksSpec text maxChars overlap start ≠ [] := by
  simp [chunksSpec, ssSpec_ne_nil hov hst]

/-- Evaluation of the Python slice `text[start:e]` for `0 ≤ start ≤ e ≤ n`. -/
theorem pySlice_eval (text : List Char) (start : ℕ) (e : ℤ)
    (h1 : (start : ℤ) ≤ e) (h2 : e ≤ text.length) :
    pySlice text start e = (text.drop start).take (e.toNat - start) := by
  have h0 : (0 : ℤ) ≤ e := le_trans (by exact_mod_cast Nat.zero_le start) h1
  have he : e.toNat ≤ text.length := by omega
  have hs : start ≤ text.length := by omega
  rw [pySlice, pyIdx, if_neg (by omega), min_eq_left he, min_eq_left hs,
    List.drop_take e.toNat start text]

/-- The loop of `chunk_text`, run with enough fuel from a position inside the
text, computes `chunksSpec` when the parameters are valid. -/
theorem chunkGo_eq_chunksSpec (text : List Char) (maxChars overlap : ℕ)
    (hov : overlap < maxChars) :
    ∀ fuel start, start < text.length → text.length - start ≤ fuel →
      chunkGo text (maxChars : ℤ) (overlap : ℤ) start fuel =
        some (chunksSpec text maxChars overlap start) := by
  intro fuel
  induction fuel with
  | zero => intro start h1 h2; omega
  | succ f ih =>
    intro start h1 h2
    rw [chunkGo]
    rw [if_pos (by exact_mod_cast h1)]
    by_cases hc : start + maxChars < text.length
    · have hmin : min ((start : ℤ) + maxChars) (text.length : ℤ) =
          ((start + maxChars : ℕ) : ℤ) := by push_cast; omega
      have hne : ¬ (min ((start : ℤ) + maxChars) (text.length : ℤ) =
          (text.length : ℤ)) := by omega
      rw [hmin] at hne ⊢
      rw [if_neg hne]
      have hchunk : pySlice text start ((start + maxChars : ℕ) : ℤ) =
          (text.drop start).take maxChars := by
        rw [pySlice_eval text start _ (by push_cast; omega) (by push_cast; omega)]
        congr 1
        omega
      have hstart' : (((start + maxChars : ℕ) : ℤ) - (overlap : ℤ)).toNat =
          start + (maxChars - overlap) := by omega
      rw [hchunk, hstart', ih _ (by omega) (by omega)]
      have hss : ssSpec text.length maxChars overlap start =
          start :: ssSpec text.length maxChars overlap (start + (maxChars - overlap)) := by
        rw [ssSpec, dif_pos ⟨hov, h1⟩, if_pos hc]
      simp [chunksSpec, hss]
    · have hmin : min ((start : ℤ) + maxChars) (text.length : ℤ) =
          (text.length : ℤ) := by omega
      rw [hmin, if_pos rfl]
      have hchunk : pySlice text start ((text.length : ℕ) : ℤ) =
          (text.drop start).take maxChars := by
        rw [pySlice_eval text start _ (by omega) (by omega)]
        rw [Int.toNat_natCast]
        rw [List.take_of_length_le (by simp), List.take_of_length_le (by simp; omega)]
      have hss : ssSpec text.length maxChars overlap start = [start] := by
        rw [ssSpec, dif_pos ⟨hov, h1⟩, if_neg hc]
      simp [chunksSpec, hss, hchunk]

/-- Consecutive start positions: the next chunk begins `overlap` characters
before the current chunk (of length `maxChars`) ends. -/
theorem ssSpec_chain_overlap {n maxChars overlap : ℕ} (hov : overlap < maxChars) :
    ∀ k start, n - start ≤ k →
      List.Chain' (fun p q => q + overlap = p + maxChars) (ssSpec n maxChars overlap start) := by
  intro k
  induction k with
  | zero =>
    intro start h
    rw [ssSpec]
    rw [dif_neg (by omega)]
    exact List.chain'_nil
  | succ k ih =>
    intro start h
    rw [ssSpec]
    by_cases hst : start < n
    · rw [dif_pos ⟨hov, hst⟩]
      by_cases hc : start + maxChars < n
      · rw [if_pos hc]
        rw [List.chain'_cons']
        refine ⟨?_, ih _ (by omega)⟩
        intro b hb
        obtain ⟨t, ht⟩ := ssSpec_head hov (show start + (maxChars - overlap) < n by omega)
        rw [ht] at hb
        simp only [List.head?_cons, Option.mem_def, Option.some.injEq] at hb
        omega
      · rw [if_neg hc]
        simp
    · rw [dif_neg (by omega)]
      exact List.chain'_nil

/-- The start positions strictly increase along the loop. -/
theorem ssSpec_chain_lt {n maxChars overlap : ℕ} (hov : overlap < maxChars) :
    ∀ k start, n - start ≤ k →
      List.Chain' (· < ·) (ssSpec n maxChars overlap start) := by
  intro k
  induction k with
  | zero =>
    intro start h
    rw [ssSpec, dif_neg (by omega)]
    exact List.chain'_nil
  | succ k ih =>
    intro start h
    rw [ssSpec]
    by_cases hst : start < n
    · rw [dif_pos ⟨hov, hst⟩]
      by_cases hc : start + maxChars < n
      · rw [if_pos hc]
        rw [List.chain'_cons']
        refine ⟨?_, ih _ (by omega)⟩
        intro b hb
        obtain ⟨t, ht⟩ := ssSpec_head hov (show start + (maxChars - overlap) < n by omega)
        rw [ht] at hb
        simp only [List.head?_cons, Option.mem_def, Option.some.injEq] at hb
        omega
      · rw [if_neg hc]
        simp
    · rw [dif_neg (by omega)]
      exact List.chain'_nil

/-- The first start position is the start argument itself. -/
theorem ssSpec_head_eq {n maxChars overlap start : ℕ} (hov : overlap < maxChars)
    (hst : start < n) : (ssSpec n maxChars overlap start).head? = some start := by
  obtain ⟨t, ht⟩ := ssSpec_head hov hst
  rw [ht]; rfl

/-- Dropping the `overlap`-prefix of every chunk from `start` on and
concatenating gives the text from `start + overlap` on. -/
theorem chunksSpec_drop_flatten {text : List Char} {maxChars overlap : ℕ}
    (hov : overlap < maxChars) :
    ∀ k start, text.length - start ≤ k → start < text.length →
      ((chunksSpec text maxChars overlap start).map (·.drop overlap)).flatten =
        text.drop (start + overlap) := by
  intro k
  induction k with
  | zero => intro start h hst; omega
  | succ k ih =>
    intro start h hst
    unfold chunksSpec
    rw [ssSpec]
    rw [dif_pos ⟨hov, hst⟩]
    by_cases hc : start + maxChars < text.length
    · rw [if_pos hc]
      simp only [List.map_cons, List.map_map, List.flatten_cons]
      have htail := ih (start + (maxChars - overlap)) (by omega) (by omega)
      unfold chunksSpec at htail
      rw [List.map_map] at htail
      rw [htail]
      have hdrop : ((text.drop start).take maxChars).drop overlap =
          (text.drop (start + overlap)).take (maxChars - overlap) := by
        rw [List.drop_take maxChars overlap, List.drop_drop]
      rw [hdrop]
      have harg : text.drop (start + (maxChars - overlap) + overlap) =
          (text.drop (start + overlap)).drop (maxChars - overlap) := by
        rw [List.drop_drop]
        congr 1
        omega
      rw [harg, List.take_append_drop]
    · rw [if_neg hc]
      simp only [List.map_cons, List.map_nil, List.flatten_cons, List.flatten_nil,
        List.append_nil]
      have hlen : (text.drop start).length ≤ maxChars := by simp; omega
      rw [List.take_of_length_le hlen, List.drop_drop]

/-- Segmentation coverage: `joinOv` of the chunks reconstructs the text. -/
theorem joinOv_chunksSpec {text : List Char} {maxChars overlap : ℕ}
    (hov : overlap < maxChars) (hne : text ≠ []) :
    joinOv overlap (chunksSpec text maxChars overlap 0) = text := by
  have hn : 0 < text.length := List.length_pos.mpr hne
  unfold chunksSpec
  rw [ssSpec]
  rw [dif_pos ⟨hov, hn⟩]
  by_cases hc : 0 + maxChars < text.length
  · rw [if_pos hc]
    simp only [List.map_cons, joinOv, List.map_map]
    have htail := @chunksSpec_drop_flatten text maxChars overlap hov text.length
      (0 + (maxChars - overlap)) (by omega) (by omega)
    unfold chunksSpec at htail
    rw [List.map_map] at htail
    rw [Function.comp_def] at htail ⊢
    rw [htail]
    have : 0 + (maxChars - overlap) + overlap = maxChars := by omega
    rw [this]
    simp only [List.drop_zero]
    exact List.take_append_drop maxChars text
  · rw [if_neg hc]
    simp only [List.map_cons, List.map_nil, joinOv, List.flatten_nil, List.append_nil]
    simp only [List.drop_zero]
    apply List.take_of_length_le
    omega

/-- Every chunk returned as the last one is a suffix of the text: the final
chunk ends exactly at the text's end. -/
theorem chunksSpec_getLast_suffix {text : List Char} {maxChars overlap : ℕ}
    (hov : overlap < maxChars) :
    ∀ k start, text.length - start ≤ k → start < text.length →
      ∀ l, (chunksSpec text maxChars overlap start).getLast? = some l → l <:+ text := by
  intro k
  induction k with
  | zero => intro start h hst; omega
  | succ k ih =>
    intro start h hst l hl
    unfold chunksSpec at hl
    rw [ssSpec] at hl
    rw [dif_pos ⟨hov, hst⟩] at hl
    by_cases hc : start + maxChars < text.length
    · rw [if_pos hc] at hl
      simp only [List.map_cons] at hl
      rw [getLast?_cons_ne_nil _ (by
        simpa [chunksSpec] using chunksSpec_ne_nil hov
          (show start + (maxChars - overlap) < text.length by omega))] at hl
      exact ih (start + (maxChars - overlap)) (by omega) (by omega) l
        (by simpa [chunksSpec] using hl)
    · rw [if_neg hc] at hl
      simp only [List.map_cons, List.map_nil, List.getLast?_singleton,
        Option.some.injEq] at hl
      have hlen : (text.drop start).length ≤ maxChars := by simp; omega
      rw [← hl, List.take_of_length_le hlen]
      exact List.drop_suffix start text

/-- Every start position except the last starts a full chunk that does not
reach the end of the text. -/
theorem ssSpec_dropLast {n maxChars overlap : ℕ} (hov : overlap < maxChars) :
    ∀ k start, n - start ≤ k →
      ∀ p ∈ (ssSpec n maxChars overlap start).dropLast, p + maxChars < n := by
  intro k
  induction k with
  | zero =>
    intro start h p hp
    rw [ssSpec, dif_neg (by omega)] at hp
    simp at hp
  | succ k ih =>
    intro start h p hp
    rw [ssSpec] at hp
    by_cases hst : start < n
    · rw [dif_pos ⟨hov, hst⟩] at hp
      by_cases hc : start + maxChars < n
      · rw [if_pos hc] at hp
        rw [List.dropLast_cons_of_ne_nil
          (ssSpec_ne_nil hov (show start + (maxChars - overlap) < n by omega))] at hp
        rcases List.mem_cons.mp hp with h1 | h2
        · omega
        · exact ih _ (by omega) p h2
      · rw [if_neg hc] at hp
        simp at hp
    · rw [dif_neg (by omega)] at hp
      simp at hp

/-- The last start position starts the chunk that reaches the end. -/
theorem ssSpec_getLast {n maxChars overlap : ℕ} (hov : overlap < maxChars) :
    ∀ k start, n - start ≤ k → start < n →
      ∀ p, (ssSpec n maxChars overlap start).getLast? = some p → n ≤ p + maxChars := by
  intro k
  induction k with
  | zero => intro start h hst; omega
  | succ k ih =>
    intro start h hst p hp
    rw [ssSpec] at hp
    rw [dif_pos ⟨hov, hst⟩] at hp
    by_cases hc : start + maxChars < n
    · rw [if_pos hc] at hp
      rw [getLast?_cons_ne_nil _
        (ssSpec_ne_nil hov (show start + (maxChars - overlap) < n by omega))] at hp
      exact ih _ (by omega) (by omega) p hp
    · rw [if_neg hc] at hp
      simp only [List.getLast?_singleton, Option.some.injEq] at hp
      omega

/-- Main evaluation of `chunk_text` for valid parameters. -/
theorem chunk_text_eq_chunksSpec (text : List Char) (maxChars overlap : ℕ)
    (hov : overlap < maxChars) :
    chunk_text text (maxChars : ℤ) (overlap : ℤ) =
      some (chunksSpec text maxChars overlap 0) := by
  unfold chunk_text
  by_cases hne : text.isEmpty
  · rw [if_pos hne]
    have : text.length = 0 := by simpa [List.isEmpty_iff_length_eq_zero] using hne
    unfold chunksSpec
    rw [ssSpec, dif_neg (by omega)]
    rfl
  · rw [if_neg hne]
    have hn : 0 < text.length := by
      cases text with
      | nil => simp at hne
      | cons a t => simp
    exact chunkGo_eq_chunksSpec text maxChars overlap hov _ 0 hn (by omega)

/-! ### Divergence of the loop on invalid parameters -/

/-- With non-positive `max_chars` (and non-negative `overlap`) on a non-empty
text, the loop never terminates: `start` never reaches `n` and `end` never
equals `n`. -/
theorem chunkGo_diverges_nonpos {text : List Char} {maxChars overlap : ℤ}
    (hm : maxChars ≤ 0) (hov : 0 ≤ overlap) :
    ∀ fuel (start : ℕ), (start : ℤ) < (text.length : ℤ) →
      chunkGo text maxChars overlap start fuel = none := by
  intro fuel
  induction fuel with
  | zero => intro start _; rfl
  | succ f ih =>
    intro start hst
    rw [chunkGo]
    rw [if_pos hst]
    have hmin : min ((start : ℤ) + maxChars) (text.length : ℤ) = (start : ℤ) + maxChars := by
      omega
    rw [hmin, if_neg (by omega)]
    rw [ih ((start : ℤ) + maxChars - overlap).toNat (by omega)]
    rfl

/-- With `overlap ≥ max_chars > 0` and a text longer than `max_chars`, the
loop never terminates: `start` is reset to `0` on every iteration. -/
theorem chunkGo_diverges_overlap {text : List Char} {maxChars overlap : ℤ}
    (h1 : 0 < maxChars) (h2 : maxChars ≤ overlap) (h3 : maxChars < text.length) :
    ∀ fuel, chunkGo text maxChars overlap 0 fuel = none := by
  intro fuel
  induction fuel with
  | zero => rfl
  | succ f ih =>
    rw [chunkGo]
    rw [if_pos (by push_cast; omega)]
    have hmin : min ((0 : ℕ) + maxChars) (text.length : ℤ) = maxChars := by push_cast; omega
    rw [hmin, if_neg (by omega)]
    have : (maxChars - overlap).toNat = 0 := by omega
    rw [this, ih]
    rfl

/-! ### Claims C4, C5, C6 (segmentation) -/

/-- **C4 (amended).**  The claim says `chunk_text` rejects invalid parameters
(`overlap >= max_chars` or non-positive `max_chars`) synchronously before any
work begins.  The source performs no such validation; instead, for those
parameter combinations (whenever the text is long enough for the loop not to
finish in its first iteration) the `while` loop never terminates: `start` is
reset to a position it has already visited on every iteration.  The amended
claim: `chunk_text` does not validate its parameters; with
`overlap ≥ max_chars` (and a text longer than `max_chars`), or with
non-positive `max_chars` (non-negative `overlap`, non-empty text), the call
diverges instead of failing fast. -/
theorem claim_C4_amended (text : List Char) (maxChars overlap : ℤ)
    (h : (maxChars ≤ 0 ∧ 0 ≤ overlap ∧ text ≠ []) ∨
         (0 < maxChars ∧ maxChars ≤ overlap ∧ maxChars < text.length)) :
    chunkDiverges text maxChars overlap ∧ chunk_text text maxChars overlap = none := by
  have hdiv : chunkDiverges text maxChars overlap := by
    rcases h with ⟨h1, h2, h3⟩ | ⟨h1, h2, h3⟩
    · intro fuel
      apply chunkGo_diverges_nonpos h1 h2
      have : 0 < text.length := List.length_pos.mpr h3
      push_cast
      omega
    · intro fuel
      exact chunkGo_diverges_overlap h1 h2 h3 fuel
  have hne : ¬ text.isEmpty = true := by
    rcases h with ⟨_, _, h3⟩ | ⟨h1, _, h3⟩
    · simpa [List.isEmpty_iff] using h3
    · intro hc
      rw [List.isEmpty_iff] at hc
      rw [hc] at h3
      simp at h3
      omega
  exact ⟨hdiv, by rw [chunk_text, if_neg hne, hdiv]⟩

/-- **C4 (counterexample).**  At `text = "ab"`, `max_chars = 1`,
`overlap = 1` — an invalid parameter combination the claim says is rejected
before any work begins — the source's loop instead runs forever (every fuel
bound is exhausted), so no rejection, and no error at all, ever happens. -/
theorem claim_C4_counterexample :
    chunkDiverges "ab".data 1 1 ∧ chunk_text "ab".data 1 1 = none := by
  have hdiv : chunkDiverges "ab".data 1 1 := fun fuel =>
    chunkGo_diverges_overlap (by decide) (by decide) (by decide) fuel
  exact ⟨hdiv, by rw [chunk_text, if_neg (by decide), hdiv]⟩

/-- **C4 (witness).**  The amended claim applied at `text = "a"`,
`max_chars = 0`, `overlap = 0`. -/
theorem claim_C4_witness :
    chunkDiverges "a".data 0 0 ∧ chunk_text "a".data 0 0 = none :=
  claim_C4_amended "a".data 0 0 (Or.inl ⟨le_refl 0, le_refl 0, by decide⟩)

/-- **C5.**  For valid parameters (`max_chars > 0`, `0 ≤ overlap <
max_chars`, non-negativity encoded by `ℕ`): segmenting the empty text yields
the empty sequence; every chunk has length at most `max_chars`; the chunks
are the slices of the text at a sequence of start positions beginning at 0 in
which each next chunk begins `overlap` characters before the previous one
ends (`q + overlap = p + maxChars`); stripping the repeated `overlap`-length
prefix from every chunk after the first and concatenating reconstructs the
text exactly; and the final chunk ends exactly at the text's end (it is a
suffix of the text). -/
theorem claim_C5 (text : List Char) (maxChars overlap : ℕ) (hov : overlap < maxChars) :
    ∃ cs ss,
      chunk_text text (maxChars : ℤ) (overlap : ℤ) = some cs ∧
      (text = [] → cs = []) ∧
      (∀ c ∈ cs, c.length ≤ maxChars) ∧
      cs = ss.map (fun p => (text.drop p).take maxChars) ∧
      (cs ≠ [] → ss.head? = some 0) ∧
      List.Chain' (fun p q => q + overlap = p + maxChars) ss ∧
      joinOv overlap cs = text ∧
      (∀ l, cs.getLast? = some l → l <:+ text) := by
  refine ⟨chunksSpec text maxChars overlap 0, ssSpec text.length maxChars overlap 0,
    chunk_text_eq_chunksSpec text maxChars overlap hov, ?_, ?_, rfl, ?_, ?_, ?_, ?_⟩
  · intro he
    unfold chunksSpec
    rw [ssSpec, dif_neg (by simp [he])]
    rfl
  · intro c hc
    simp only [chunksSpec, List.mem_map] at hc
    obtain ⟨p, _, rfl⟩ := hc
    simp [List.length_take]
  · intro hne
    have hn : 0 < text.length := by
      by_contra hc
      apply hne
      unfold chunksSpec
      rw [ssSpec, dif_neg (by omega)]
      rfl
    exact ssSpec_head_eq hov hn
  · exact ssSpec_chain_overlap hov text.length 0 (by omega)
  · by_cases he : text = []
    · subst he
      unfold chunksSpec
      rw [ssSpec, dif_neg (by simp)]
      rfl
    · exact joinOv_chunksSpec hov he
  · intro l hl
    have hn : 0 < text.length := by
      by_contra hc
      rw [show chunksSpec text maxChars overlap 0 = [] from by
        unfold chunksSpec; rw [ssSpec, dif_neg (by omega)]; rfl] at hl
      simp at hl
    exact chunksSpec_getLast_suffix hov text.length 0 (by omega) hn l hl

/-- **C5 (witness).**  The theorem applied at `"abcdef"`, `max_chars = 4`,
`overlap = 1`. -/
theorem claim_C5_witness :
    ∃ cs ss,
      chunk_text "abcdef".data (4 : ℤ) (1 : ℤ) = some cs ∧
      ("abcdef".data = [] → cs = []) ∧
      (∀ c ∈ cs, c.length ≤ 4) ∧
      cs = ss.map (fun p => ("abcdef".data.drop p).take 4) ∧
      (cs ≠ [] → ss.head? = some 0) ∧
      List.Chain' (fun p q => q + 1 = p + 4) ss ∧
      joinOv 1 cs = "abcdef".data ∧
      (∀ l, cs.getLast? = some l → l <:+ "abcdef".data) :=
  claim_C5 "abcdef".data 4 1 (by decide)

/-- **C6.**  For valid parameters the segmentation loop terminates: any fuel
beyond `text.length` iterations yields the same completed result (the loop is
a total computation), the chunk start positions strictly increase from one
iteration to the next, every chunk except the last ends strictly before the
text's end (so no chunk is emitted twice for the end-of-text boundary), and
the loop stops at the chunk that reaches the text's end. -/
theorem claim_C6 (text : List Char) (maxChars overlap : ℕ) (hov : overlap < maxChars) :
    ∃ cs ss,
      chunk_text text (maxChars : ℤ) (overlap : ℤ) = some cs ∧
      (∀ fuel, text.length + 1 ≤ fuel →
        chunkGo text (maxChars : ℤ) (overlap : ℤ) 0 fuel = some cs) ∧
      cs = ss.map (fun p => (text.drop p).take maxChars) ∧
      List.Chain' (· < ·) ss ∧
      (∀ p ∈ ss.dropLast, p + maxChars < text.length) ∧
      (∀ p, ss.getLast? = some p → text.length ≤ p + maxChars) := by
  refine ⟨chunksSpec text maxChars overlap 0, ssSpec text.length maxChars overlap 0,
    chunk_text_eq_chunksSpec text maxChars overlap hov, ?_, rfl, ?_, ?_, ?_⟩
  · intro fuel hfuel
    by_cases hn : 0 < text.length
    · exact chunkGo_eq_chunksSpec text maxChars overlap hov fuel 0 hn (by omega)
    · have he : text = [] := by
        cases text with
        | nil => rfl
        | cons a t => simp at hn
      subst he
      obtain ⟨f, rfl⟩ : ∃ f, fuel = f + 1 := ⟨fuel - 1, by omega⟩
      rw [chunkGo]
      rw [if_neg (by simp)]
      unfold chunksSpec
      rw [ssSpec, dif_neg (by simp)]
      rfl
  · exact ssSpec_chain_lt hov text.length 0 (by omega)
  · exact ssSpec_dropLast hov text.length 0 (by omega)
  · intro p hp
    have hn : 0 < text.length := by
      by_contra hc
      rw [ssSpec, dif_neg (by omega)] at hp
      simp at hp
    exact ssSpec_getLast hov text.length 0 (by omega) hn p hp

/-- **C6 (witness).**  The theorem applied at `"abcdef"`, `max_chars = 4`,
`overlap = 1`. -/
theorem claim_C6_witness :
    ∃ cs ss,
      chunk_text "abcdef".data (4 : ℤ) (1 : ℤ) = some cs ∧
      (∀ fuel, "abcdef".data.length + 1 ≤ fuel →
        chunkGo "abcdef".data (4 : ℤ) (1 : ℤ) 0 fuel = some cs) ∧
      cs = ss.map (fun p => ("abcdef".data.drop p).take 4) ∧
      List.Chain' (· < ·) ss ∧
      (∀ p ∈ ss.dropLast, p + 4 < "abcdef".data.length) ∧
      (∀ p, ss.getLast? = some p → "abcdef".data.length ≤ p + 4) :=
  claim_C6 "abcdef".data 4 1 (by decide)

/-! ### Lemmas about `argsort` (stable insertion sort on scores) -/

theorem mem_insertAsc (sims : List ℝ) (i : ℕ) :
    ∀ l k, k ∈ insertAsc sims i l ↔ k = i ∨ k ∈ l := by
  intro l
  induction l with
  | nil => intro k; simp [insertAsc]
  | cons j rest ih =>
    intro k
    rw [insertAsc]
    split
    · simp only [List.mem_cons]
    · simp only [List.mem_cons, ih]
      tauto

theorem length_insertAsc (sims : List ℝ) (i : ℕ) :
    ∀ l, (insertAsc sims i l).length = l.length + 1 := by
  intro l
  induction l with
  | nil => simp [insertAsc]
  | cons j rest ih =>
    rw [insertAsc]
    split <;> simp [ih]

theorem pairwise_insertAsc (sims : List ℝ) (i : ℕ) :
    ∀ l, l.Pairwise (fun a b => sims.getD a 0 < sims.getD b 0 ∨
        (sims.getD a 0 = sims.getD b 0 ∧ a < b)) →
      (∀ j ∈ l, j < i) →
      (insertAsc sims i l).Pairwise (fun a b => sims.getD a 0 < sims.getD b 0 ∨
        (sims.getD a 0 = sims.getD b 0 ∧ a < b)) := by
  intro l
  induction l with
  | nil => intro _ _; simp [insertAsc]
  | cons j rest ih =>
    intro hp hlt
    rw [List.pairwise_cons] at hp
    obtain ⟨hj, hrest⟩ := hp
    rw [insertAsc]
    split
    · rename_i hcmp
      refine List.Pairwise.cons ?_ (List.Pairwise.cons hj hrest)
      intro b hb
      rcases List.mem_cons.mp hb with rfl | hb'
      · exact Or.inl hcmp
      · rcases hj b hb' with h1 | ⟨h1, _⟩
        · exact Or.inl (lt_trans hcmp h1)
        · exact Or.inl (h1 ▸ hcmp)
    · rename_i hcmp
      push_neg at hcmp
      refine List.Pairwise.cons ?_
        (ih hrest (fun a ha => hlt a (List.mem_cons_of_mem _ ha)))
      intro b hb
      rcases (mem_insertAsc sims i rest b).mp hb with rfl | hb'
      · rcases lt_or_eq_of_le hcmp with h1 | h1
        · exact Or.inl h1
        · exact Or.inr ⟨h1, hlt j (List.mem_cons_self j rest)⟩
      · exact hj b hb'

theorem foldl_insertAsc_mem (sims : List ℝ) :
    ∀ (l acc : List ℕ) (k : ℕ),
      (k ∈ l.foldl (fun acc i => insertAsc sims i acc) acc) ↔ k ∈ acc ∨ k ∈ l := by
  intro l
  induction l with
  | nil => intro acc k; simp
  | cons i rest ih =>
    intro acc k
    simp only [List.foldl_cons]
    rw [ih, mem_insertAsc]
    simp only [List.mem_cons]
    tauto

theorem length_foldl_insertAsc (sims : List ℝ) :
    ∀ (l acc : List ℕ),
      (l.foldl (fun acc i => insertAsc sims i acc) acc).length = acc.length + l.length := by
  intro l
  induction l with
  | nil => intro acc; simp
  | cons i rest ih =>
    intro acc
    simp only [List.foldl_cons, List.length_cons]
    rw [ih, length_insertAsc]
    omega

theorem pairwise_foldl_insertAsc (sims : List ℝ) :
    ∀ (l acc : List ℕ),
      acc.Pairwise (fun a b => sims.getD a 0 < sims.getD b 0 ∨
        (sims.getD a 0 = sims.getD b 0 ∧ a < b)) →
      List.Pairwise (· < ·) l →
      (∀ j ∈ acc, ∀ i ∈ l, j < i) →
      (l.foldl (fun acc i => insertAsc sims i acc) acc).Pairwise
        (fun a b => sims.getD a 0 < sims.getD b 0 ∨
          (sims.getD a 0 = sims.getD b 0 ∧ a < b)) := by
  intro l
  induction l with
  | nil => intro acc h _ _; simpa using h
  | cons i rest ih =>
    intro acc hacc hl hcross
    rw [List.pairwise_cons] at hl
    obtain ⟨hi, hrest⟩ := hl
    simp only [List.foldl_cons]
    apply ih _ (pairwise_insertAsc sims i acc hacc
      (fun j hj => hcross j hj i (List.mem_cons_self _ _))) hrest
    intro j hj i' hi'
    rcases (mem_insertAsc sims i acc j).mp hj with rfl | hj'
    · exact hi i' hi'
    · exact hcross j hj' i' (List.mem_cons_of_mem _ hi')

theorem argsortAsc_pairwise (sims : List ℝ) :
    (argsortAsc sims).Pairwise (fun a b => sims.getD a 0 < sims.getD b 0 ∨
      (sims.getD a 0 = sims.getD b 0 ∧ a < b)) := by
  apply pairwise_foldl_insertAsc sims (List.range sims.length) []
  · simp
  · exact List.pairwise_lt_range _
  · simp

theorem argsortAsc_mem (sims : List ℝ) (k : ℕ) :
    k ∈ argsortAsc sims ↔ k < sims.length := by
  rw [argsortAsc, foldl_insertAsc_mem]
  simp [List.mem_range]

theorem argsortAsc_length (sims : List ℝ) :
    (argsortAsc sims).length = sims.length := by
  rw [argsortAsc, length_foldl_insertAsc]
  simp

theorem argsortAsc_nodup (sims : List ℝ) : (argsortAsc sims).Nodup := by
  apply List.Pairwise.imp ?_ (argsortAsc_pairwise sims)
  intro a b h
  rcases h with h | ⟨_, h⟩
  · rintro rfl
    exact lt_irrefl _ h
  · omega

theorem map_getD_range (l : List ℝ) :
    (List.range l.length).map (fun i => l.getD i 0) = l := by
  induction l with
  | nil => rfl
  | cons a t ih =>
    rw [show (a :: t).length = t.length + 1 from rfl, List.range_succ_eq_map]
    simp only [List.map_cons, List.map_map]
    have h2 : (List.range t.length).map ((fun i => (a :: t).getD i 0) ∘ Nat.succ) =
        (List.range t.length).map (fun i => t.getD i 0) := rfl
    rw [h2, ih]
    rfl

/-- Every determinization of `argsort` returns a permutation of the index
range. -/
theorem argsortAsc_perm_range (sims : List ℝ) :
    (argsortAsc sims).Perm (List.range sims.length) := by
  apply (List.subperm_of_subset (argsortAsc_nodup sims) ?_).perm_of_length_le ?_
  · intro i hi
    rw [List.mem_range]
    exact (argsortAsc_mem sims i).mp hi
  · rw [argsortAsc_length, List.length_range]

/-- Reading the scores back along the argsort gives a permutation of the
score list. -/
theorem argsortAsc_map_getD_perm (sims : List ℝ) :
    ((argsortAsc sims).map (fun i => sims.getD i 0)).Perm sims := by
  have h := (argsortAsc_perm_range sims).map (fun i => sims.getD i 0)
  rw [map_getD_range] at h
  exact h

/-! ### Lemmas about the retriever operations -/

/-- `_build_index` either raises leaving the state unchanged, or succeeds
replacing exactly the entry for `pid`. -/
theorem build_index_cases (st : RetState) (pid : String) (chunks : List String) :
    (∃ e : RtError, Retriever.build_index st pid chunks = (st, some e)) ∨
    (∃ vocab idf rows,
      fitTransform (if chunks.isEmpty then [""] else chunks) = some (vocab, idf, rows) ∧
      Retriever.build_index st pid chunks =
        (RetState.mk st.files (Function.update st.cache pid
          (some (IndexEntry.mk (if chunks.isEmpty then [""] else chunks) vocab idf rows))),
         none)) := by
  unfold Retriever.build_index
  cases hft : fitTransform (if chunks.isEmpty then [""] else chunks) with
  | none => exact Or.inl ⟨.emptyVocab, rfl⟩
  | some v =>
    obtain ⟨vocab, idf, rows⟩ := v
    exact Or.inr ⟨vocab, idf, rows, rfl, rfl⟩

/-- `query` on a document whose entry is cached returns the ranked results of
that entry and does not change the state. -/
theorem query_of_entry {st : RetState} {pid : String} {entry : IndexEntry}
    (h : st.cache pid = some entry) (question : String) (topK : ℤ) :
    Retriever.query st pid question topK =
      (st, .ok (Retriever.queryResults entry question topK)) := by
  unfold Retriever.query Retriever.ensure_index
  rw [if_pos (by simp [h])]
  simp [h]

/-- `query` on a cold cache whose lazy build raises propagates the error. -/
theorem query_cold_raise {st : RetState} {pid : String} (hcache : st.cache pid = none)
    {e : RtError}
    (hb : Retriever.build_index st pid (Retriever.load_chunks st pid) = (st, some e))
    (question : String) (topK : ℤ) :
    Retriever.query st pid question topK = (st, .error e) := by
  unfold Retriever.query Retriever.ensure_index
  rw [if_neg (by simp [hcache]), hb]

/-- `query` on a cold cache whose lazy build succeeds answers from the fresh
entry. -/
theorem query_cold_built {st st1 : RetState} {pid : String} (hcache : st.cache pid = none)
    (hb : Retriever.build_index st pid (Retriever.load_chunks st pid) = (st1, none))
    (question : String) (topK : ℤ) :
    ∃ entry, st1.cache pid = some entry ∧
      Retriever.query st pid question topK =
        (st1, .ok (Retriever.queryResults entry question topK)) := by
  obtain ⟨entry, hentry⟩ : ∃ e, st1.cache pid = some e := by
    rcases build_index_cases st pid (Retriever.load_chunks st pid) with ⟨e, he⟩ | h
    · rw [he] at hb
      simp at hb
    · obtain ⟨vocab, idf, rows, -, heq⟩ := h
      rw [heq] at hb
      injection hb with h1 _
      refine ⟨IndexEntry.mk (if (Retriever.load_chunks st pid).isEmpty then [""]
        else Retriever.load_chunks st pid) vocab idf rows, ?_⟩
      rw [← h1]
      simp [Function.update_same]
  refine ⟨entry, hentry, ?_⟩
  unfold Retriever.query Retriever.ensure_index
  rw [if_neg (by simp [hcache]), hb]
  simp [hentry]

/-! ### Evaluation of `argsort` on two-element score lists -/

theorem argsortAsc_pair_lt {x0 x1 : ℝ} (h : x1 < x0) : argsortAsc [x0, x1] = [1, 0] := by
  unfold argsortAsc
  rw [show ([x0, x1] : List ℝ).length = 2 from rfl]
  rw [show List.range 2 = [0, 1] from by decide]
  simp only [List.foldl_cons, List.foldl_nil]
  rw [insertAsc, insertAsc]
  rw [if_pos (by simpa using h)]

theorem argsortAsc_pair_ge {x0 x1 : ℝ} (h : ¬ x1 < x0) : argsortAsc [x0, x1] = [0, 1] := by
  unfold argsortAsc
  rw [show ([x0, x1] : List ℝ).length = 2 from rfl]
  rw [show List.range 2 = [0, 1] from by decide]
  simp only [List.foldl_cons, List.foldl_nil]
  rw [insertAsc, insertAsc]
  rw [if_neg (by simpa using h), insertAsc]

/-! ### Arithmetic of the vector model -/

theorem nrm_apply (vocab : List String) (u : String → ℝ) (t : String)
    (h : normV vocab u ≠ 0) : nrm vocab u t = u t / normV vocab u := by
  rw [nrm, if_neg h]

theorem sum_sq_nonneg (vocab : List String) (u : String → ℝ) :
    0 ≤ (vocab.map (fun t => u t ^ 2)).sum := by
  apply List.sum_nonneg
  intro x hx
  obtain ⟨t, -, rfl⟩ := List.mem_map.mp hx
  positivity

theorem normV_nrm (vocab : List String) (u : String → ℝ) (h : normV vocab u ≠ 0) :
    normV vocab (nrm vocab u) = 1 := by
  have hS : 0 ≤ (vocab.map (fun t => u t ^ 2)).sum := sum_sq_nonneg vocab u
  have hSpos : 0 < (vocab.map (fun t => u t ^ 2)).sum := by
    rcases lt_or_eq_of_le hS with h1 | h1
    · exact h1
    · exfalso
      apply h
      rw [normV, ← h1, Real.sqrt_zero]
  rw [nrm, if_neg h]
  show Real.sqrt ((vocab.map (fun t => (u t / normV vocab u) ^ 2)).sum) = 1
  have hsq : (normV vocab u) ^ 2 = (vocab.map (fun t => u t ^ 2)).sum := by
    unfold normV
    exact Real.sq_sqrt hS
  have hmap : (vocab.map fun t => (u t / normV vocab u) ^ 2) =
      (vocab.map fun t => u t ^ 2 * ((vocab.map (fun t => u t ^ 2)).sum)⁻¹) := by
    apply List.map_congr_left
    intro t _
    rw [div_pow, hsq, div_eq_mul_inv]
  rw [hmap, List.sum_map_mul_right, mul_inv_cancel₀ (ne_of_gt hSpos), Real.sqrt_one]

theorem nrm_nrm (vocab : List String) (u : String → ℝ) (h : normV vocab u ≠ 0) :
    nrm vocab (nrm vocab u) = nrm vocab u := by
  have h1 : normV vocab (nrm vocab u) = 1 := normV_nrm vocab u h
  rw [nrm, h1]
  rw [if_neg one_ne_zero]
  funext t
  rw [div_one]

theorem idfOf_pos (docs : List String) (t : String) : 0 < idfOf docs t := by
  unfold idfOf
  have h1 : (docFreq docs t : ℝ) ≤ (docs.length : ℝ) := by
    exact_mod_cast List.length_filter_le _ docs
  have h2 : (0:ℝ) ≤ Real.log ((1 + (docs.length : ℝ)) / (1 + (docFreq docs t : ℝ))) := by
    apply Real.log_nonneg
    rw [le_div_iff₀ (by positivity)]
    linarith
  linarith

/-! ### Claim C1 (empty or absent document: the code raises) -/

/-- **C1 (code bug).**  The claim (and the spec) says: a query against a
document with zero persisted passages, or with absent or unreadable storage
— including a document indexed with an empty passage list and a document
never indexed — returns an empty result sequence and never raises.  In the
source the opposite happens, for every question and every `top_k`: the lazy
`_build_index` substitutes `[""]` for the empty chunk list ("avoid fitting
empty"), and `TfidfVectorizer(stop_words="english").fit_transform([""])`
raises `ValueError: empty vocabulary`, which propagates out of `query`
(likewise out of `index_product("empty", [])` itself).  The dead
`if not entry: return []` fallback in `query` shows the intended behavior
is what the spec says, so this is a code bug, not a spec error. -/
theorem claim_C1_bug (question : String) (topK : ℤ) :
    (Retriever.query emptyRetState "doc" question topK).2 = .error .emptyVocab ∧
    (Retriever.query corruptRetState "doc" question topK).2 = .error .emptyVocab ∧
    (Retriever.index_product emptyRetState "empty" [] true).2 = some .emptyVocab ∧
    (Retriever.query (Retriever.index_product emptyRetState "empty" [] true).1
      "empty" question topK).2 = .error .emptyVocab := by
  have hft : fitTransform [""] = none := by
    unfold fitTransform
    rw [if_pos (by decide)]
  have hb : ∀ (st : RetState) (pid : String),
      Retriever.build_index st pid [] = (st, some .emptyVocab) := by
    intro st pid
    unfold Retriever.build_index
    rw [show (if ([] : List String).isEmpty then [""] else []) = [""] from rfl, hft]
  have hload1 : Retriever.load_chunks emptyRetState "doc" = [] := rfl
  have hload2 : Retriever.load_chunks corruptRetState "doc" = [] := rfl
  refine ⟨?_, ?_, ?_, ?_⟩
  · rw [query_cold_raise rfl (by rw [hload1]; exact hb _ _) question topK]
  · rw [query_cold_raise rfl (by rw [hload2]; exact hb _ _) question topK]
  · unfold Retriever.index_product
    rw [if_pos rfl, hb]
  · have hst : (Retriever.index_product emptyRetState "empty" [] true).1 =
        Retriever.save_chunks emptyRetState "empty" [] := by
      unfold Retriever.index_product
      rw [if_pos rfl, hb]
    rw [hst]
    have hload : Retriever.load_chunks (Retriever.save_chunks emptyRetState "empty" [])
        "empty" = [] := by
      unfold Retriever.load_chunks Retriever.save_chunks
      simp [Function.update_same]
    rw [query_cold_raise rfl (by rw [hload]; exact hb _ _) question topK]

/-! ### Claims C7, C8, C9, C10 (store and indexing) -/

/-- **C7.**  Store round trip: saving passages for a document id and loading
the same id returns exactly the saved passages — for every prior state of the
store (absent, unreadable, or previously saved), every id, and every passage
sequence, including the empty sequence and sequences containing empty
strings (the store is modelled as a map from id to the saved `List String`,
mirroring the order- and content-preserving JSON round trip of
`index_product`'s `json.dump(..., ensure_ascii=False)` and
`_load_chunks`'s `json.load`). -/
theorem claim_C7 (st : RetState) (pid : String) (chunks : List String) :
    Retriever.load_chunks (Retriever.save_chunks st pid chunks) pid = chunks := by
  unfold Retriever.load_chunks Retriever.save_chunks
  simp [Function.update_same]

/-- **C8.**  If the durable write of `index_product` fails, the call raises
(the failure propagates to the caller) and the whole retriever state — in
particular the in-memory cache entry of the id — is exactly as before the
call: "indexed" implies "durably saved". -/
theorem claim_C8 (st : RetState) (pid : String) (chunks : List String) :
    Retriever.index_product st pid chunks false = (st, some .writeFailed) ∧
    (Retriever.index_product st pid chunks false).1.cache = st.cache := by
  constructor <;> rfl

/-- **C9.**  Isolation: indexing document `d2` (whether the write succeeds or
fails, and whether the index build succeeds or raises) leaves both the cached
entry and the persisted passages of any other document `d1` unchanged. -/
theorem claim_C9 (st : RetState) (d1 d2 : String) (chunks : List String)
    (writeOk : Bool) (hne : d1 ≠ d2) :
    (Retriever.index_product st d2 chunks writeOk).1.cache d1 = st.cache d1 ∧
    (Retriever.index_product st d2 chunks writeOk).1.files d1 = st.files d1 := by
  cases writeOk with
  | false => exact ⟨rfl, rfl⟩
  | true =>
    unfold Retriever.index_product
    rw [if_pos rfl]
    rcases build_index_cases (Retriever.save_chunks st d2 chunks) d2 chunks with
      ⟨e, he⟩ | ⟨vocab, idf, rows, -, he⟩
    · rw [he]
      unfold Retriever.save_chunks
      exact ⟨rfl, by simp [Function.update_noteq hne]⟩
    · rw [he]
      unfold Retriever.save_chunks
      exact ⟨by simp [Function.update_noteq hne], by simp [Function.update_noteq hne]⟩

/-- **C9 (witness).**  The theorem applied to two concrete distinct ids. -/
theorem claim_C9_witness :
    (Retriever.index_product emptyRetState "d2" ["x y"] true).1.cache "d1" =
      emptyRetState.cache "d1" ∧
    (Retriever.index_product emptyRetState "d2" ["x y"] true).1.files "d1" =
      emptyRetState.files "d1" :=
  claim_C9 emptyRetState "d1" "d2" ["x y"] true (by decide)

/-- **C10.**  `index_product` persists before it builds: when the build
raises (any non-empty chunk list whose vocabulary is empty after
tokenization/stop-word removal), the call raises, yet the persisted file
already holds the new passages while the in-memory cache is exactly as
before — the store and the cache can refer to different passage sequences
after a failed call. -/
theorem claim_C10 (st : RetState) (pid : String) (chunks : List String)
    (hne : chunks ≠ []) (hvocab : buildVocab chunks = []) :
    (Retriever.index_product st pid chunks true).2 = some .emptyVocab ∧
    (Retriever.index_product st pid chunks true).1.files pid = .good chunks ∧
    (Retriever.index_product st pid chunks true).1.cache = st.cache ∧
    Retriever.load_chunks (Retriever.index_product st pid chunks true).1 pid = chunks := by
  have hie : chunks.isEmpty = false := by
    cases chunks with
    | nil => exact absurd rfl hne
    | cons a t => rfl
  have hft : fitTransform chunks = none := by
    unfold fitTransform
    rw [if_pos (by simp [hvocab])]
  unfold Retriever.index_product Retriever.build_index Retriever.save_chunks
    Retriever.load_chunks
  rw [if_pos rfl]
  simp [hie, hft, Function.update_same]

/-- **C10 (witness).**  The theorem applied at the non-empty chunk list
`["the"]`, whose only token is an English stop word, so the fitted vocabulary
is empty and `fit_transform` raises. -/
theorem claim_C10_witness :
    (Retriever.index_product emptyRetState "d1" ["the"] true).2 = some .emptyVocab ∧
    (Retriever.index_product emptyRetState "d1" ["the"] true).1.files "d1" =
      .good ["the"] ∧
    (Retriever.index_product emptyRetState "d1" ["the"] true).1.cache =
      emptyRetState.cache ∧
    Retriever.load_chunks (Retriever.index_product emptyRetState "d1" ["the"] true).1
      "d1" = ["the"] :=
  claim_C10 emptyRetState "d1" ["the"] (by decide) (by decide)

/-! ### Concrete evaluation of the C2 scenario -/

theorem c2_fit : fitTransform c2Docs = some (["alpha", "beta", "gamma"], idfOf c2Docs,
    [nrm ["alpha", "beta", "gamma"] (tfidfRaw c2Docs "alpha beta"),
     nrm ["alpha", "beta", "gamma"] (tfidfRaw c2Docs "gamma")]) := by
  unfold fitTransform
  rw [if_neg (by decide)]
  rw [show buildVocab c2Docs = ["alpha", "beta", "gamma"] from by decide]
  rfl

theorem c2_query_snd :
    (Retriever.query (Retriever.save_chunks emptyRetState "d1" c2Docs) "d1" "alpha" 1).2 =
      .ok (Retriever.queryResults c2Entry "alpha" 1) := by
  unfold Retriever.query Retriever.ensure_index
  rw [if_neg (by simp [Retriever.save_chunks, emptyRetState])]
  rw [show Retriever.load_chunks (Retriever.save_chunks emptyRetState "d1" c2Docs) "d1" =
    c2Docs from by simp [Retriever.load_chunks, Retriever.save_chunks, Function.update_same]]
  unfold Retriever.build_index
  rw [show (if c2Docs.isEmpty then [""] else c2Docs) = c2Docs from rfl, c2_fit]
  simp [Function.update_same, c2Entry]

theorem c2_ranking :
    (Retriever.queryResults c2Entry "alpha" 1).map QueryResult.text = ["alpha beta"] := by
  have hA : 0 < idfOf c2Docs "alpha" := idfOf_pos _ _
  have hqa : (tokenize "alpha").count "alpha" = 1 := by decide
  have hqb : (tokenize "alpha").count "beta" = 0 := by decide
  have hqg : (tokenize "alpha").count "gamma" = 0 := by decide
  have h0a : (tokenize "alpha beta").count "alpha" = 1 := by decide
  have h0b : (tokenize "alpha beta").count "beta" = 1 := by decide
  have h0g : (tokenize "alpha beta").count "gamma" = 0 := by decide
  have h1a : (tokenize "gamma").count "alpha" = 0 := by decide
  have h1b : (tokenize "gamma").count "beta" = 0 := by decide
  have h1g : (tokenize "gamma").count "gamma" = 1 := by decide
  have hNqpos : 0 < normV ["alpha", "beta", "gamma"]
      (fun t => ((tokenize "alpha").count t : ℝ) * idfOf c2Docs t) := by
    unfold normV
    apply Real.sqrt_pos.mpr
    simp only [List.map_cons, List.map_nil, List.sum_cons, List.sum_nil, hqa, hqb, hqg]
    push_cast
    have h2 : 0 < idfOf c2Docs "alpha" ^ 2 := pow_pos hA 2
    nlinarith
  have hN0pos : 0 < normV ["alpha", "beta", "gamma"] (tfidfRaw c2Docs "alpha beta") := by
    unfold normV tfidfRaw
    apply Real.sqrt_pos.mpr
    simp only [List.map_cons, List.map_nil, List.sum_cons, List.sum_nil, h0a, h0b, h0g]
    push_cast
    have h2 : 0 < idfOf c2Docs "alpha" ^ 2 := pow_pos hA 2
    have h3 : (0:ℝ) ≤ idfOf c2Docs "beta" ^ 2 := sq_nonneg _
    nlinarith
  have hN1pos : 0 < normV ["alpha", "beta", "gamma"] (tfidfRaw c2Docs "gamma") := by
    unfold normV tfidfRaw
    apply Real.sqrt_pos.mpr
    simp only [List.map_cons, List.map_nil, List.sum_cons, List.sum_nil, h1a, h1b, h1g]
    push_cast
    have h2 : 0 < idfOf c2Docs "gamma" ^ 2 := pow_pos (idfOf_pos _ _) 2
    nlinarith
  have hs1 : dotV ["alpha", "beta", "gamma"]
      (nrm ["alpha", "beta", "gamma"]
        (fun t => ((tokenize "alpha").count t : ℝ) * idfOf c2Docs t))
      (nrm ["alpha", "beta", "gamma"] (tfidfRaw c2Docs "gamma")) = 0 := by
    rw [nrm, if_neg (ne_of_gt hNqpos), nrm, if_neg (ne_of_gt hN1pos)]
    unfold dotV tfidfRaw
    simp only [List.map_cons, List.map_nil, List.sum_cons, List.sum_nil,
      hqa, hqb, hqg, h1a, h1b, h1g]
    push_cast
    ring
  have hr0a : tfidfRaw c2Docs "alpha beta" "alpha" = idfOf c2Docs "alpha" := by
    unfold tfidfRaw
    rw [h0a]
    push_cast
    ring
  have hr0b : tfidfRaw c2Docs "alpha beta" "beta" = idfOf c2Docs "beta" := by
    unfold tfidfRaw
    rw [h0b]
    push_cast
    ring
  have hr0g : tfidfRaw c2Docs "alpha beta" "gamma" = 0 := by
    unfold tfidfRaw
    rw [h0g]
    push_cast
    ring
  have hs0 : 0 < dotV ["alpha", "beta", "gamma"]
      (nrm ["alpha", "beta", "gamma"]
        (fun t => ((tokenize "alpha").count t : ℝ) * idfOf c2Docs t))
      (nrm ["alpha", "beta", "gamma"] (tfidfRaw c2Docs "alpha beta")) := by
    rw [nrm, if_neg (ne_of_gt hNqpos), nrm, if_neg (ne_of_gt hN0pos)]
    unfold dotV
    simp only [List.map_cons, List.map_nil, List.sum_cons, List.sum_nil,
      hqa, hqb, hqg, hr0a, hr0b, hr0g]
    push_cast
    simp only [zero_mul, mul_zero, zero_div, add_zero, zero_add, one_mul]
    exact mul_pos (div_pos hA hNqpos) (div_pos hA hN0pos)
  have hsims : Retriever.querySims c2Entry "alpha" =
      [dotV ["alpha", "beta", "gamma"]
        (nrm ["alpha", "beta", "gamma"]
          (fun t => ((tokenize "alpha").count t : ℝ) * idfOf c2Docs t))
        (nrm ["alpha", "beta", "gamma"] (tfidfRaw c2Docs "alpha beta")),
       dotV ["alpha", "beta", "gamma"]
        (nrm ["alpha", "beta", "gamma"]
          (fun t => ((tokenize "alpha").count t : ℝ) * idfOf c2Docs t))
        (nrm ["alpha", "beta", "gamma"] (tfidfRaw c2Docs "gamma"))] := by
    unfold Retriever.querySims
    simp only [c2Entry, List.map_cons, List.map_nil]
    rw [nrm_nrm _ _ (ne_of_gt hNqpos), nrm_nrm _ _ (ne_of_gt hN0pos),
      nrm_nrm _ _ (ne_of_gt hN1pos)]
  simp only [Retriever.queryResults]
  rw [hsims]
  rw [argsortAsc_pair_lt (lt_of_le_of_lt (le_of_eq hs1) hs0)]
  simp [c2Entry, c2Docs]

/-! ### Claim C2 (lazy rebuild from the store) -/

/-- **C2.**  For every document id with persisted passages but no in-memory
cache entry (a cold cache, e.g. after a process restart), `query` answers
exactly as it would if `index_document` had just been called this session
with the persisted passages (it loads the passages via the store and builds
the index lazily).  In particular, on a state holding only the persisted
passages `["alpha beta", "gamma"]` for `"d1"` and an empty cache,
`query("d1", "alpha", 1)` returns `"alpha beta"` as the top (and only)
result. -/
theorem claim_C2 :
    (∀ (st : RetState) (pid : String) (chunks : List String)
        (question : String) (topK : ℤ),
      st.cache pid = none → st.files pid = .good chunks →
      (Retriever.query st pid question topK).2 =
        (Retriever.query (Retriever.index_product st pid chunks true).1
          pid question topK).2) ∧
    (Retriever.query (Retriever.save_chunks emptyRetState "d1" c2Docs)
        "d1" "alpha" 1).2.toOption.map (fun l => l.map QueryResult.text) =
      some ["alpha beta"] := by
  constructor
  · intro st pid chunks question topK hcache hfiles
    have hsave : Retriever.save_chunks st pid chunks = st := by
      cases st with
      | mk files cache =>
        unfold Retriever.save_chunks
        congr 1
        have hf : files pid = .good chunks := hfiles
        rw [← hf]
        exact Function.update_eq_self pid files
    have hload : Retriever.load_chunks st pid = chunks := by
      unfold Retriever.load_chunks
      rw [hfiles]
    unfold Retriever.index_product
    rw [if_pos rfl, hsave]
    rcases build_index_cases st pid chunks with ⟨e, he⟩ | ⟨vocab, idf, rows, -, he⟩
    · rw [he]
    · rw [he]
      obtain ⟨entry, hentry, hq⟩ :=
        query_cold_built hcache (by rw [hload]; exact he) question topK
      rw [hq, query_of_entry hentry question topK]
  · rw [c2_query_snd]
    simp [Except.toOption, c2_ranking]

/-- **C2 (witness).**  The general lazy-rebuild equation applied at the
concrete cold-cache state of the scenario: querying it equals querying the
state produced by an explicit `index_product` call this session. -/
theorem claim_C2_witness :
    (Retriever.query (Retriever.save_chunks emptyRetState "d1" c2Docs)
      "d1" "alpha" 1).2 =
    (Retriever.query (Retriever.index_product
      (Retriever.save_chunks emptyRetState "d1" c2Docs) "d1" c2Docs true).1
      "d1" "alpha" 1).2 :=
  claim_C2.1 (Retriever.save_chunks emptyRetState "d1" c2Docs) "d1" c2Docs
    "alpha" 1 rfl (by simp [Retriever.save_chunks, Function.update_same])

/-! ### Claim C3 (ranking, clamping and tie-breaking of `query`) -/

/-- **C3 (amended).**  For every document indexed this session with at least
one passage and every question: `query` returns `min(max(top_k, 1), n)`
results — `top_k` clamped to at least 1 and to at most the number of
passages — each carrying the text and similarity score of a distinct
in-range passage index, ordered by non-increasing similarity score, and the
returned scores are exactly the `max(top_k, 1)` largest of the similarity
row (the prefix of a non-increasing rearrangement of it).  The original
claim's tie-break ("ties broken by original passage order, stable sort") is
dropped: `sims.argsort()` uses numpy's default non-stable sort, so the order
of tied passages is unspecified in general, and on the two-element document
of the counterexample it is in fact the *reverse* of the original order. -/
theorem claim_C3_amended (st st1 : RetState) (pid : String) (chunks : List String)
    (hne : chunks ≠ [])
    (hidx : Retriever.index_product st pid chunks true = (st1, none)) :
    ∃ entry, st1.cache pid = some entry ∧ entry.chunks = chunks ∧
      ∀ (question : String) (topK : ℤ), ∃ sims idxs sortedScores,
        sims = Retriever.querySims entry question ∧
        sims.length = chunks.length ∧
        Retriever.query st1 pid question topK =
          (st1, .ok (idxs.map (fun i => ⟨chunks.getD i "", sims.getD i 0⟩))) ∧
        idxs.length = min (max topK 1).toNat chunks.length ∧
        (∀ i ∈ idxs, i < chunks.length) ∧
        idxs.Nodup ∧
        sortedScores.Perm sims ∧
        List.Pairwise (fun a b => b ≤ a) sortedScores ∧
        idxs.map (fun i => sims.getD i 0) = sortedScores.take (max topK 1).toNat ∧
        List.Pairwise (fun a b => sims.getD b 0 ≤ sims.getD a 0) idxs := by
  have hie : chunks.isEmpty = false := by
    cases chunks with
    | nil => exact absurd rfl hne
    | cons a t => rfl
  unfold Retriever.index_product at hidx
  rw [if_pos rfl] at hidx
  rcases build_index_cases (Retriever.save_chunks st pid chunks) pid chunks with
    ⟨e, he⟩ | ⟨vocab, idf, rows, hft, he⟩
  · rw [he] at hidx
    simp at hidx
  · rw [he] at hidx
    injection hidx with h1 h2
    rw [hie] at h1 hft
    simp only [Bool.false_eq_true, if_false] at h1 hft
    have hrows : rows = chunks.map (fun d => nrm (buildVocab chunks) (tfidfRaw chunks d)) := by
      unfold fitTransform at hft
      by_cases hv : (buildVocab chunks).isEmpty
      · rw [if_pos hv] at hft
        exact absurd hft (by simp)
      · rw [if_neg hv] at hft
        have h3 : (buildVocab chunks, idfOf chunks,
            chunks.map (fun d => nrm (buildVocab chunks) (tfidfRaw chunks d))) =
            (vocab, idf, rows) := by
          injection hft
        rw [Prod.mk.injEq, Prod.mk.injEq] at h3
        exact h3.2.2.symm
    refine ⟨⟨chunks, vocab, idf, rows⟩, ?_, rfl, ?_⟩
    · rw [← h1]
      simp [Function.update_same]
    · intro question topK
      have hentry : st1.cache pid = some ⟨chunks, vocab, idf, rows⟩ := by
        rw [← h1]
        simp [Function.update_same]
      have hrev : List.Pairwise
          (fun a b => (Retriever.querySims ⟨chunks, vocab, idf, rows⟩ question).getD b 0 ≤
            (Retriever.querySims ⟨chunks, vocab, idf, rows⟩ question).getD a 0)
          (argsortAsc (Retriever.querySims ⟨chunks, vocab, idf, rows⟩ question)).reverse := by
        rw [List.pairwise_reverse]
        apply List.Pairwise.imp ?_
          (argsortAsc_pairwise (Retriever.querySims ⟨chunks, vocab, idf, rows⟩ question))
        intro a b h
        rcases h with h | ⟨h1, h2⟩
        · exact le_of_lt h
        · exact le_of_eq h1
      refine ⟨Retriever.querySims ⟨chunks, vocab, idf, rows⟩ question,
        ((argsortAsc (Retriever.querySims ⟨chunks, vocab, idf, rows⟩ question)).reverse).take
          (max topK 1).toNat,
        ((argsortAsc (Retriever.querySims ⟨chunks, vocab, idf, rows⟩ question)).reverse).map
          (fun i => (Retriever.querySims ⟨chunks, vocab, idf, rows⟩ question).getD i 0),
        rfl, ?_, ?_, ?_, ?_, ?_, ?_, ?_, ?_, ?_⟩
      · unfold Retriever.querySims
        rw [hrows]
        simp
      · rw [query_of_entry hentry question topK]
        rfl
      · rw [List.length_take, List.length_reverse, argsortAsc_length]
        congr 1
        unfold Retriever.querySims
        rw [hrows]
        simp
      · intro i hi
        have h2 : i ∈ (argsortAsc (Retriever.querySims ⟨chunks, vocab, idf, rows⟩
            question)).reverse := List.mem_of_mem_take hi
        rw [List.mem_reverse] at h2
        have h3 := (argsortAsc_mem _ _).mp h2
        unfold Retriever.querySims at h3
        rw [hrows] at h3
        simpa using h3
      · exact ((List.take_sublist _ _).nodup
          (by rw [List.nodup_reverse]; exact argsortAsc_nodup _))
      · exact ((List.reverse_perm _).map _).trans (argsortAsc_map_getD_perm _)
      · rw [List.pairwise_map]
        exact hrev
      · exact List.map_take _ _ _
      · exact List.Pairwise.sublist (List.take_sublist _ _) hrev

/-! ### Concrete evaluation of the C3 tie-break scenario -/

theorem c3_fit : fitTransform c3Docs = some (["beta", "alpha"], idfOf c3Docs,
    [nrm ["beta", "alpha"] (tfidfRaw c3Docs "alpha beta"),
     nrm ["beta", "alpha"] (tfidfRaw c3Docs "beta alpha")]) := by
  unfold fitTransform
  rw [if_neg (by decide)]
  rw [show buildVocab c3Docs = ["beta", "alpha"] from by decide]
  rfl

theorem c3_query_snd :
    (Retriever.query (Retriever.index_product emptyRetState "d" c3Docs true).1
      "d" "alpha" 2).2 = .ok (Retriever.queryResults c3Entry "alpha" 2) := by
  have hb : Retriever.index_product emptyRetState "d" c3Docs true =
      (RetState.mk (Retriever.save_chunks emptyRetState "d" c3Docs).files
        (Function.update (Retriever.save_chunks emptyRetState "d" c3Docs).cache "d"
          (some c3Entry)), none) := by
    unfold Retriever.index_product
    rw [if_pos rfl]
    unfold Retriever.build_index
    rw [show (if c3Docs.isEmpty then [""] else c3Docs) = c3Docs from rfl, c3_fit]
    rfl
  rw [hb]
  have hcache : (RetState.mk (Retriever.save_chunks emptyRetState "d" c3Docs).files
      (Function.update (Retriever.save_chunks emptyRetState "d" c3Docs).cache "d"
        (some c3Entry))).cache "d" = some c3Entry := by
    simp [Function.update_same]
  rw [query_of_entry hcache "alpha" 2]

theorem c3_idf_alpha : idfOf c3Docs "alpha" = 1 := by
  unfold idfOf
  rw [show docFreq c3Docs "alpha" = 2 from by decide,
    show c3Docs.length = 2 from rfl]
  push_cast
  norm_num [Real.log_one]

theorem c3_idf_beta : idfOf c3Docs "beta" = 1 := by
  unfold idfOf
  rw [show docFreq c3Docs "beta" = 2 from by decide,
    show c3Docs.length = 2 from rfl]
  push_cast
  norm_num [Real.log_one]

theorem c3_raw0_beta : tfidfRaw c3Docs "alpha beta" "beta" = 1 := by
  unfold tfidfRaw
  rw [show (tokenize "alpha beta").count "beta" = 1 from by decide, c3_idf_beta]
  push_cast
  ring

theorem c3_raw0_alpha : tfidfRaw c3Docs "alpha beta" "alpha" = 1 := by
  unfold tfidfRaw
  rw [show (tokenize "alpha beta").count "alpha" = 1 from by decide, c3_idf_alpha]
  push_cast
  ring

theorem c3_raw1_beta : tfidfRaw c3Docs "beta alpha" "beta" = 1 := by
  unfold tfidfRaw
  rw [show (tokenize "beta alpha").count "beta" = 1 from by decide, c3_idf_beta]
  push_cast
  ring

theorem c3_raw1_alpha : tfidfRaw c3Docs "beta alpha" "alpha" = 1 := by
  unfold tfidfRaw
  rw [show (tokenize "beta alpha").count "alpha" = 1 from by decide, c3_idf_alpha]
  push_cast
  ring

theorem c3_norm0 : normV ["beta", "alpha"] (tfidfRaw c3Docs "alpha beta") =
    Real.sqrt 2 := by
  unfold normV
  congr 1
  simp only [List.map_cons, List.map_nil, List.sum_cons, List.sum_nil,
    c3_raw0_beta, c3_raw0_alpha]
  norm_num

theorem c3_norm1 : normV ["beta", "alpha"] (tfidfRaw c3Docs "beta alpha") =
    Real.sqrt 2 := by
  unfold normV
  congr 1
  simp only [List.map_cons, List.map_nil, List.sum_cons, List.sum_nil,
    c3_raw1_beta, c3_raw1_alpha]
  norm_num

theorem c3_normq : normV ["beta", "alpha"]
    (fun t => ((tokenize "alpha").count t : ℝ) * idfOf c3Docs t) = 1 := by
  unfold normV
  simp only [List.map_cons, List.map_nil, List.sum_cons, List.sum_nil,
    show (tokenize "alpha").count "beta" = 0 from by decide,
    show (tokenize "alpha").count "alpha" = 1 from by decide, c3_idf_alpha]
  push_cast
  norm_num

theorem c3_sqrt2_pos : (0:ℝ) < Real.sqrt 2 := Real.sqrt_pos.mpr (by norm_num)

theorem c3_score0 : dotV ["beta", "alpha"]
    (nrm ["beta", "alpha"] (fun t => ((tokenize "alpha").count t : ℝ) * idfOf c3Docs t))
    (nrm ["beta", "alpha"] (tfidfRaw c3Docs "alpha beta")) = (Real.sqrt 2)⁻¹ := by
  rw [nrm, if_neg (by rw [c3_normq]; exact one_ne_zero),
    nrm, if_neg (by rw [c3_norm0]; exact ne_of_gt c3_sqrt2_pos)]
  unfold dotV
  simp only [List.map_cons, List.map_nil, List.sum_cons, List.sum_nil,
    show (tokenize "alpha").count "beta" = 0 from by decide,
    show (tokenize "alpha").count "alpha" = 1 from by decide,
    c3_idf_alpha, c3_raw0_beta, c3_raw0_alpha, c3_norm0, c3_normq]
  push_cast
  norm_num

theorem c3_score1 : dotV ["beta", "alpha"]
    (nrm ["beta", "alpha"] (fun t => ((tokenize "alpha").count t : ℝ) * idfOf c3Docs t))
    (nrm ["beta", "alpha"] (tfidfRaw c3Docs "beta alpha")) = (Real.sqrt 2)⁻¹ := by
  rw [nrm, if_neg (by rw [c3_normq]; exact one_ne_zero),
    nrm, if_neg (by rw [c3_norm1]; exact ne_of_gt c3_sqrt2_pos)]
  unfold dotV
  simp only [List.map_cons, List.map_nil, List.sum_cons, List.sum_nil,
    show (tokenize "alpha").count "beta" = 0 from by decide,
    show (tokenize "alpha").count "alpha" = 1 from by decide,
    c3_idf_alpha, c3_raw1_beta, c3_raw1_alpha, c3_norm1, c3_normq]
  push_cast
  norm_num

theorem c3_sims : Retriever.querySims c3Entry "alpha" =
    [(Real.sqrt 2)⁻¹, (Real.sqrt 2)⁻¹] := by
  unfold Retriever.querySims
  simp only [c3Entry, List.map_cons, List.map_nil]
  rw [nrm_nrm _ _ (by rw [c3_normq]; exact one_ne_zero),
    nrm_nrm _ _ (by rw [c3_norm0]; exact ne_of_gt c3_sqrt2_pos),
    nrm_nrm _ _ (by rw [c3_norm1]; exact ne_of_gt c3_sqrt2_pos)]
  rw [c3_score0, c3_score1]

/-- **C3 (counterexample).**  Index the two distinct passages
`["alpha beta", "beta alpha"]`, whose tf-idf vectors are identical, and query
`"alpha"` with `top_k = 2`: both similarity scores are `1/√2` — a tie — yet
the first returned passage is `"beta alpha"`, the *later* one.  The claim's
tie-break ("ties broken by original passage order, stable sort") predicts
`["alpha beta", "beta alpha"]`; the code returns the reverse, because
`argsort()[::-1]` reverses a stable ascending sort. -/
theorem claim_C3_counterexample :
    ((Retriever.query (Retriever.index_product emptyRetState "d" c3Docs true).1
        "d" "alpha" 2).2.toOption.map (fun l => l.map QueryResult.text) =
      some ["beta alpha", "alpha beta"]) ∧
    ((Retriever.query (Retriever.index_product emptyRetState "d" c3Docs true).1
        "d" "alpha" 2).2.toOption.map (fun l => l.map QueryResult.score) =
      some [(Real.sqrt 2)⁻¹, (Real.sqrt 2)⁻¹]) := by
  have hqr : Retriever.queryResults c3Entry "alpha" 2 =
      [⟨"beta alpha", (Real.sqrt 2)⁻¹⟩, ⟨"alpha beta", (Real.sqrt 2)⁻¹⟩] := by
    simp only [Retriever.queryResults]
    rw [c3_sims]
    rw [argsortAsc_pair_ge (lt_irrefl _)]
    simp [c3Entry, c3Docs]
  rw [c3_query_snd]
  constructor
  · simp [Except.toOption, hqr]
  · simp [Except.toOption, hqr]

/-- **C3 (witness).**  The amended theorem applied to a freshly indexed
one-passage document. -/
theorem claim_C3_amended_witness :
    ∃ entry, ((Retriever.index_product emptyRetState "dw" ["ab"] true).1).cache "dw" =
        some entry ∧ entry.chunks = ["ab"] ∧
      ∀ (question : String) (topK : ℤ), ∃ sims idxs sortedScores,
        sims = Retriever.querySims entry question ∧
        sims.length = (["ab"] : List String).length ∧
        Retriever.query (Retriever.index_product emptyRetState "dw" ["ab"] true).1
          "dw" question topK =
          ((Retriever.index_product emptyRetState "dw" ["ab"] true).1,
            .ok (idxs.map (fun i =>
              ⟨(["ab"] : List String).getD i "", sims.getD i 0⟩))) ∧
        idxs.length = min (max topK 1).toNat (["ab"] : List String).length ∧
        (∀ i ∈ idxs, i < (["ab"] : List String).length) ∧
        idxs.Nodup ∧
        sortedScores.Perm sims ∧
        List.Pairwise (fun a b => b ≤ a) sortedScores ∧
        idxs.map (fun i => sims.getD i 0) = sortedScores.take (max topK 1).toNat ∧
        List.Pairwise (fun a b => sims.getD b 0 ≤ sims.getD a 0) idxs :=
  claim_C3_amended emptyRetState
    (Retriever.index_product emptyRetState "dw" ["ab"] true).1 "dw" ["ab"]
    (by decide)
    (by
      have h2 : (Retriever.index_product emptyRetState "dw" ["ab"] true).2 = none := by
        unfold Retriever.index_product Retriever.build_index
        rw [if_pos rfl]
        rw [show (if (["ab"] : List String).isEmpty then [""] else ["ab"]) = ["ab"]
          from rfl]
        unfold fitTransform
        rw [if_neg (by decide)]
      exact Prod.ext rfl h2)

end PdfCore
